import Mathlib

/-!
Formalisation of `se3cnn/image/groupnorm.py`.

Tensors `[batch, channel, x, y, z]` are modelled with the three spatial axes
flattened into one axis of length `N = x * y * z`, exactly as the forward pass
itself does via `view(batch, m, d, -1)`; entries are rationals.  The floating
point operation `t.pow(-0.5)` has no rational counterpart, so it is modelled by
an abstract function `rsqrt : ℚ → ℚ` handed to the forward pass; no statement
below depends on its values.  A raised `AssertionError` is modelled by `none`.
-/

/-- Sum of all entries of a `[multiplicity, dimension, spatial]` block. -/
def sumAll (field : List (List (List ℚ))) : ℚ :=
  (field.map fun ch => (ch.map fun r => r.sum).sum).sum

/-- Sum of the squares of all entries of a block (`field ** 2` summed over all axes). -/
def sumSq (field : List (List (List ℚ))) : ℚ :=
  (field.map fun ch => (ch.map fun r => (r.map fun x => x ^ 2).sum).sum).sum

/-- The code line `field.view(batch, -1).mean(-1)` for one batch sample of shape
`[m, d, N]`: the mean of all `m * d * N` entries. -/
def blockMean (field : List (List (List ℚ))) (m d N : ℕ) : ℚ :=
  sumAll field / ((m * d * N : ℕ) : ℚ)

/-- The code lines `torch.sum(field ** 2, dim=2)` followed by
`.view(batch, -1).mean(-1)`: squares summed across the dimension axis, then the
mean over the multiplicity and spatial axes, one scalar per batch sample. -/
def fieldNormStat (field : List (List (List ℚ))) (m N : ℕ) : ℚ :=
  sumSq field / ((m * N : ℕ) : ℚ)

/-- Entrywise application of a function to a `[m, d, N]` block (torch broadcasting). -/
def mapField (f : ℚ → ℚ) (field : List (List (List ℚ))) : List (List (List ℚ)) :=
  field.map fun ch => ch.map fun r => r.map f

/-- Entry `field[i][j][k]` of a block, with `0` as the out-of-bounds default. -/
def getE (field : List (List (List ℚ))) (i j k : ℕ) : ℚ :=
  ((field.getD i []).getD j []).getD k 0

/-- The code line `input[:, ix: ix + m * d].contiguous().view(batch, m, d, -1)` on
one batch sample: channel `ix + i * d + j` becomes row `(i, j)` of the block. -/
def sliceBlock (sample : List (List ℚ)) (ix m d N : ℕ) : List (List (List ℚ)) :=
  (List.range m).map fun i => (List.range d).map fun j =>
    (List.range N).map fun k => (sample.getD (ix + i * d + j) []).getD k 0

/-- The mean subtraction `field - field_mean.view(-1, 1, 1, 1)`, applied exactly
when `d == 1` (the scalar blocks). -/
def centeredField (m d N : ℕ) (field : List (List (List ℚ))) : List (List (List ℚ)) :=
  if d = 1 then mapField (fun x => x - blockMean field m d N) field else field

/-- Normalisation of one `[m, d, N]` block for one batch sample: mean centering for
`d == 1`, the scale `rsqrt (stat + eps)` (the code's `(field_norm + self.eps).pow(-0.5)`),
the per-channel affine weight, and the bias added to scalar blocks.  Here `w` and `b`
are the slices `self.weight[iw: iw + m]` and `self.bias[ib: ib + m]`. -/
def normBlock (eps : ℚ) (rsqrt : ℚ → ℚ) (affine : Bool) (w b : List ℚ) (m d N : ℕ)
    (field : List (List (List ℚ))) : List (List (List ℚ)) :=
  let c := centeredField m d N field
  let scale := rsqrt (fieldNormStat c m N + eps)
  (List.range m).map fun i =>
    let ci := if affine = true then scale * w.getD i 0 else scale
    let bi := if affine = true ∧ d = 1 then b.getD i 0 else 0
    (List.range d).map fun j => (List.range N).map fun k => ci * getE c i j k + bi

/-- The per-block loop of `SE3GroupNorm.forward` acting on one batch sample.
`ix`, `iw`, `ib` are the running channel, weight and bias offsets; each block
contributes its `m * d` output channels via `field.view(batch, m * d, ...)`, and
the offsets advance exactly as in the code (`iw` only when affine, `ib` only when
affine and `d == 1`). -/
def forwardSample (eps : ℚ) (rsqrt : ℚ → ℚ) (affine : Bool) (w b : List ℚ) (N : ℕ)
    (sample : List (List ℚ)) : List (ℕ × ℕ) → ℕ → ℕ → ℕ → List (List ℚ)
  | [], _, _, _ => []
  | (m, d) :: rest, ix, iw, ib =>
    (normBlock eps rsqrt affine (List.take m (List.drop iw w)) (List.take m (List.drop ib b))
        m d N (sliceBlock sample ix m d N)).flatten ++
      forwardSample eps rsqrt affine w b N sample rest (ix + m * d)
        (iw + if affine = true then m else 0) (ib + if affine = true ∧ d = 1 then m else 0)

/-- Final value of the loop counter `ix`: the total channel width consumed. -/
def consumedWidth (Rs : List (ℕ × ℕ)) : ℕ := (Rs.map fun p => p.1 * p.2).sum

/-- Final value of the loop counter `iw` in the affine case; also the length
`sum(m for m, d in Rs)` that the constructor allocates for `weight`. -/
def consumedWeight (Rs : List (ℕ × ℕ)) : ℕ := (Rs.map Prod.fst).sum

/-- Final value of the loop counter `ib` in the affine case; also the length
`sum(m for m, d in Rs if d == 1)` that the constructor allocates for `bias`. -/
def consumedBias (Rs : List (ℕ × ℕ)) : ℕ :=
  ((Rs.filter fun p => p.2 == 1).map Prod.fst).sum

/-- State of an `SE3GroupNorm` module. -/
structure SE3GroupNorm where
  Rs : List (ℕ × ℕ)
  eps : ℚ
  affine : Bool
  weight : Option (List ℚ)
  bias : Option (List ℚ)
  deriving DecidableEq

/-- The constructor `SE3GroupNorm.__init__`: it stores the filtered
`[(m, d) for m, d in Rs if m * d > 0]` and, when affine, allocates
`weight = torch.ones(sum(m for m, d in Rs))` and
`bias = torch.zeros(sum(m for m, d in Rs if d == 1))`, both sums ranging over
the original, unfiltered `Rs` argument exactly as in the code. -/
def SE3GroupNorm.init (Rs : List (ℕ × ℕ)) (eps : ℚ) (affine : Bool) : SE3GroupNorm :=
  { Rs := Rs.filter fun p => decide (0 < p.1 * p.2)
    eps := eps
    affine := affine
    weight := if affine then some (List.replicate (consumedWeight Rs) 1) else none
    bias := if affine then some (List.replicate (consumedBias Rs) 0) else none }

/-- A `[batch, channel, x, y, z]` tensor with the spatial axes flattened: nominal
channel count `C`, flattened spatial size `N`, and the data as a list of batch
samples, each a list of `C` channels of `N` values. -/
structure Tensor3 where
  C : ℕ
  N : ℕ
  data : List (List (List ℚ))
  deriving DecidableEq

/-- Wellformedness: every batch sample really has `C` channels of `N` values each. -/
def Tensor3.wf (t : Tensor3) : Prop :=
  ∀ s ∈ t.data, s.length = t.C ∧ ∀ r ∈ s, r.length = t.N

/-- The method `SE3GroupNorm.forward`: every block of every batch sample is
normalised, then the code asserts `ix == input.size(1)` and, when affine,
`iw == self.weight.size(0)` and `ib == self.bias.size(0)`; a failed assert is
modelled by `none`. -/
def SE3GroupNorm.forward (gn : SE3GroupNorm) (rsqrt : ℚ → ℚ) (input : Tensor3) :
    Option Tensor3 :=
  let w := gn.weight.getD []
  let b := gn.bias.getD []
  let fields := input.data.map fun sample =>
    forwardSample gn.eps rsqrt gn.affine w b input.N sample gn.Rs 0 0 0
  if consumedWidth gn.Rs = input.C ∧
      (gn.affine = true →
        consumedWeight gn.Rs = w.length ∧ consumedBias gn.Rs = b.length) then
    some ⟨input.C, input.N, fields⟩
  else none

/-- Modelled from the spec: the external `SE3Convolution` module is imported from
`se3cnn.image.convolution`, whose source is not part of this repository; it is
modelled as an opaque map on tensors, stored next to the group norm that the
wrapper composes it with. -/
structure SE3GNConvolution where
  gn : SE3GroupNorm
  conv : Tensor3 → Tensor3

/-- The constructor `SE3GNConvolution.__init__`: when `Rs_gn` is not supplied it
defaults to `[(m, 2 * l + 1) for m, l in Rs_in]`, and the group norm is built
from it with the given `eps` (and the default `affine=True`). -/
def SE3GNConvolution.init (Rs_in : List (ℕ × ℕ)) (conv : Tensor3 → Tensor3) (eps : ℚ)
    (Rs_gn : Option (List (ℕ × ℕ))) : SE3GNConvolution :=
  { gn := SE3GroupNorm.init (Rs_gn.getD (Rs_in.map fun p => (p.1, 2 * p.2 + 1))) eps true
    conv := conv }

/-- The method `SE3GNConvolution.forward`: `self.conv(self.gn(input))`. -/
def SE3GNConvolution.forward (mdl : SE3GNConvolution) (rsqrt : ℚ → ℚ) (input : Tensor3) :
    Option Tensor3 :=
  (mdl.gn.forward rsqrt input).map mdl.conv

/-- Wellformedness of a `[m, d, N]` block as produced by `sliceBlock`. -/
def fieldWf (field : List (List (List ℚ))) (m d N : ℕ) : Prop :=
  field.length = m ∧ ∀ ch ∈ field, ch.length = d ∧ ∀ r ∈ ch, r.length = N

/-- Reading index `i < n` out of a list built by mapping over `List.range n`. -/
theorem getD_range_map {β : Type} (f : ℕ → β) (dflt : β) (n i : ℕ) (hi : i < n) :
    ((List.range n).map f).getD i dflt = f i := by
  rw [List.getD_eq_getElem?_getD, List.getElem?_map, List.getElem?_range hi]
  rfl

/-- Entry `(i, j, k)` of a block built from nested `List.range` maps. -/
theorem getE_ofRanges (f : ℕ → ℕ → ℕ → ℚ) (m d N i j k : ℕ)
    (hi : i < m) (hj : j < d) (hk : k < N) :
    getE ((List.range m).map fun a => (List.range d).map fun c =>
      (List.range N).map fun e => f a c e) i j k = f i j k := by
  unfold getE
  rw [getD_range_map _ _ _ _ hi, getD_range_map _ _ _ _ hj, getD_range_map _ _ _ _ hk]

/-- Closed form of one entry of `normBlock`: the centered entry times the shared
scale (times the channel weight when affine), plus the bias for scalar blocks. -/
theorem normBlock_entry (eps : ℚ) (rsqrt : ℚ → ℚ) (affine : Bool) (w b : List ℚ)
    (m d N : ℕ) (field : List (List (List ℚ))) (i j k : ℕ)
    (hi : i < m) (hj : j < d) (hk : k < N) :
    getE (normBlock eps rsqrt affine w b m d N field) i j k =
      (if affine = true then
          rsqrt (fieldNormStat (centeredField m d N field) m N + eps) * w.getD i 0
        else rsqrt (fieldNormStat (centeredField m d N field) m N + eps)) *
        getE (centeredField m d N field) i j k +
        (if affine = true ∧ d = 1 then b.getD i 0 else 0) :=
  getE_ofRanges
    (fun a c e =>
      (if affine = true then
          rsqrt (fieldNormStat (centeredField m d N field) m N + eps) * w.getD a 0
        else rsqrt (fieldNormStat (centeredField m d N field) m N + eps)) *
        getE (centeredField m d N field) a c e +
        (if affine = true ∧ d = 1 then b.getD a 0 else 0))
    m d N i j k hi hj hk

/-- When `d ≠ 1` no centering happens. -/
theorem centeredField_of_ne (m d N : ℕ) (field : List (List (List ℚ))) (hd : d ≠ 1) :
    centeredField m d N field = field := if_neg hd

/-- Entry of an entrywise map over a wellformed block. -/
theorem getE_mapField (f : ℚ → ℚ) (field : List (List (List ℚ))) (m d N i j k : ℕ)
    (hwf : fieldWf field m d N) (hi : i < m) (hj : j < d) (hk : k < N) :
    getE (mapField f field) i j k = f (getE field i j k) := by
  obtain ⟨hlen, hch⟩ := hwf
  have hi' : i < field.length := hlen ▸ hi
  obtain ⟨hd, hrow⟩ := hch (field[i]) (List.getElem_mem hi')
  have hj' : j < (field[i]).length := hd ▸ hj
  obtain hN := hrow ((field[i])[j]) (List.getElem_mem hj')
  have hk' : k < ((field[i])[j]).length := hN ▸ hk
  simp only [getE, mapField, List.getD_eq_getElem?_getD, List.getElem?_map,
    List.getElem?_eq_getElem hi', List.getElem?_eq_getElem hj', List.getElem?_eq_getElem hk',
    Option.map_some', Option.getD_some]

/-- Flattening a list of lists of a common length `c` yields `length * c` items. -/
theorem flatten_length_const {α : Type} (L : List (List α)) (c : ℕ)
    (h : ∀ l ∈ L, l.length = c) : L.flatten.length = L.length * c := by
  induction L with
  | nil => simp
  | cons hd tl ih =>
    have hhd : hd.length = c := h hd (List.mem_cons_self hd tl)
    have htl : tl.flatten.length = tl.length * c :=
      ih fun l hl => h l (List.mem_cons_of_mem hd hl)
    simp [List.flatten_cons, hhd, htl, Nat.succ_mul, Nat.add_comm]

/-- A normalised block flattens to exactly `m * d` output channels. -/
theorem normBlock_flatten_length (eps : ℚ) (rsqrt : ℚ → ℚ) (affine : Bool)
    (w b : List ℚ) (m d N : ℕ) (field : List (List (List ℚ))) :
    (normBlock eps rsqrt affine w b m d N field).flatten.length = m * d := by
  have h : ∀ l ∈ normBlock eps rsqrt affine w b m d N field, l.length = d := by
    intro l hl
    simp only [normBlock, List.mem_map] at hl
    obtain ⟨i, _, rfl⟩ := hl
    simp
  rw [flatten_length_const _ d h]
  simp [normBlock]

/-- Every output channel of a normalised block has the spatial length `N`. -/
theorem normBlock_channel_length (eps : ℚ) (rsqrt : ℚ → ℚ) (affine : Bool)
    (w b : List ℚ) (m d N : ℕ) (field : List (List (List ℚ))) :
    ∀ ch ∈ (normBlock eps rsqrt affine w b m d N field).flatten, ch.length = N := by
  intro ch hch
  rw [List.mem_flatten] at hch
  obtain ⟨l, hl, hch⟩ := hch
  simp only [normBlock, List.mem_map] at hl
  obtain ⟨i, _, rfl⟩ := hl
  simp only [List.mem_map] at hch
  obtain ⟨j, _, rfl⟩ := hch
  simp

/-- The loop over blocks emits `sum(m * d)` output channels in total, for every
value of the running offsets. -/
theorem forwardSample_length (eps : ℚ) (rsqrt : ℚ → ℚ) (affine : Bool) (w b : List ℚ)
    (N : ℕ) (sample : List (List ℚ)) :
    ∀ (Rs : List (ℕ × ℕ)) (ix iw ib : ℕ),
      (forwardSample eps rsqrt affine w b N sample Rs ix iw ib).length =
        consumedWidth Rs := by
  intro Rs
  induction Rs with
  | nil => intro ix iw ib; simp [forwardSample, consumedWidth]
  | cons hd tl ih =>
    intro ix iw ib
    obtain ⟨m, d⟩ := hd
    simp only [forwardSample, List.length_append, normBlock_flatten_length, ih,
      consumedWidth, List.map_cons, List.sum_cons]

/-- Every output channel emitted by the loop has the spatial length `N`. -/
theorem forwardSample_channel_length (eps : ℚ) (rsqrt : ℚ → ℚ) (affine : Bool)
    (w b : List ℚ) (N : ℕ) (sample : List (List ℚ)) :
    ∀ (Rs : List (ℕ × ℕ)) (ix iw ib : ℕ),
      ∀ ch ∈ forwardSample eps rsqrt affine w b N sample Rs ix iw ib, ch.length = N := by
  intro Rs
  induction Rs with
  | nil => intro ix iw ib ch hch; simp [forwardSample] at hch
  | cons hd tl ih =>
    intro ix iw ib ch hch
    obtain ⟨m, d⟩ := hd
    simp only [forwardSample, List.mem_append] at hch
    rcases hch with hch | hch
    · exact normBlock_channel_length _ _ _ _ _ _ _ _ _ ch hch
    · exact ih _ _ _ ch hch

/-- With `affine = false` a block normalisation never reads the weight or bias. -/
theorem normBlock_affine_false (eps : ℚ) (rsqrt : ℚ → ℚ) (w b w2 b2 : List ℚ)
    (m d N : ℕ) (field : List (List (List ℚ))) :
    normBlock eps rsqrt false w b m d N field = normBlock eps rsqrt false w2 b2 m d N field := by
  simp [normBlock]

/-- With `affine = false` the whole loop never reads the weight or bias, whatever
the running offsets are. -/
theorem forwardSample_affine_false (eps : ℚ) (rsqrt : ℚ → ℚ) (w b w2 b2 : List ℚ)
    (N : ℕ) (sample : List (List ℚ)) :
    ∀ (Rs : List (ℕ × ℕ)) (ix iw ib iw2 ib2 : ℕ),
      forwardSample eps rsqrt false w b N sample Rs ix iw ib =
        forwardSample eps rsqrt false w2 b2 N sample Rs ix iw2 ib2 := by
  intro Rs
  induction Rs with
  | nil => intro ix iw ib iw2 ib2; rfl
  | cons hd tl ih =>
    intro ix iw ib iw2 ib2
    obtain ⟨m, d⟩ := hd
    simp only [forwardSample]
    rw [normBlock_affine_false eps rsqrt _ _ (List.take m (List.drop iw2 w2))
      (List.take m (List.drop ib2 b2))]
    rw [ih]

/-- C1: evidence that the claim is right and the code is wrong.  The constructor
sums multiplicities over the UNfiltered `Rs` argument, so for
`Rs = [(2, 0), (3, 1)]` (affine) it allocates a weight vector of length `5`
although the kept blocks only have total multiplicity `3`; the forward pass on a
channel-matched input then fails its own assert `iw == self.weight.size(0)`. -/
theorem init_weight_alloc_mismatch :
    (SE3GroupNorm.init [(2, 0), (3, 1)] 1 true).weight = some (List.replicate 5 1) ∧
    (SE3GroupNorm.init [(2, 0), (3, 1)] 1 true).bias = some (List.replicate 3 0) ∧
    consumedWeight (SE3GroupNorm.init [(2, 0), (3, 1)] 1 true).Rs = 3 ∧
    consumedWidth (SE3GroupNorm.init [(2, 0), (3, 1)] 1 true).Rs = 3 ∧
    (SE3GroupNorm.init [(2, 0), (3, 1)] 1 true).forward (fun x => x)
        ⟨3, 1, [[[1], [2], [3]]]⟩ = none :=
  ⟨by decide, by decide, by decide, by decide, by decide⟩

/-- C7: construction stores exactly the pairs of `Rs` whose product `m * d` is
positive, in their original order (a sublist of `Rs`), multiplicities included. -/
theorem init_filters_Rs (Rs : List (ℕ × ℕ)) (eps : ℚ) (affine : Bool) :
    (SE3GroupNorm.init Rs eps affine).Rs = Rs.filter (fun p => decide (0 < p.1 * p.2)) ∧
    (SE3GroupNorm.init Rs eps affine).Rs.Sublist Rs ∧
    (∀ p : ℕ × ℕ, p ∈ (SE3GroupNorm.init Rs eps affine).Rs ↔ p ∈ Rs ∧ 0 < p.1 * p.2) ∧
    (∀ p : ℕ × ℕ, (SE3GroupNorm.init Rs eps affine).Rs.count p =
      if 0 < p.1 * p.2 then Rs.count p else 0) := by
  refine ⟨rfl, List.filter_sublist Rs, ?_, ?_⟩
  · intro p
    simp [SE3GroupNorm.init, List.mem_filter]
  · intro p
    by_cases h : 0 < p.1 * p.2
    · rw [if_pos h]
      simp only [SE3GroupNorm.init]
      exact List.count_filter (by simpa using h)
    · rw [if_neg h]
      simp only [SE3GroupNorm.init]
      rw [List.count_eq_zero]
      simp only [List.mem_filter, decide_eq_true_eq, not_and]
      intro _
      exact h

/-- C8: with `eps > 0` the base handed to the inverse power is strictly positive
for every block: the norm statistic is a mean of sums of squares, hence
nonnegative, and adding `eps` makes it positive. -/
theorem normStat_add_eps_pos (eps : ℚ) (field : List (List (List ℚ))) (m N : ℕ)
    (heps : 0 < eps) : 0 < fieldNormStat field m N + eps := by
  have h0 : (0 : ℚ) ≤ sumSq field := by
    unfold sumSq
    apply List.sum_nonneg
    intro x hx
    simp only [List.mem_map] at hx
    obtain ⟨ch, _, rfl⟩ := hx
    apply List.sum_nonneg
    intro y hy
    simp only [List.mem_map] at hy
    obtain ⟨r, _, rfl⟩ := hy
    apply List.sum_nonneg
    intro z hz
    simp only [List.mem_map] at hz
    obtain ⟨q, _, rfl⟩ := hz
    positivity
  have h1 : (0 : ℚ) ≤ fieldNormStat field m N := by
    unfold fieldNormStat
    apply div_nonneg h0
    positivity
  linarith

/-- C8 witness at a concrete block and epsilon. -/
theorem normStat_add_eps_pos_example : (0 : ℚ) < fieldNormStat [[[2]]] 1 1 + 1 :=
  normStat_add_eps_pos 1 [[[2]]] 1 1 (by norm_num)

/-- C4: before any affine weight, every entry of a block is scaled by one and the
same factor `rsqrt (fieldNormStat c + eps)`; the statistic is the mean over the
multiplicity and spatial axes of the squares summed across the dimension axis,
one scalar for the whole block, not per channel and not per position. -/
theorem normBlock_scale_shared (eps : ℚ) (rsqrt : ℚ → ℚ) (w b : List ℚ) (m d N : ℕ)
    (field : List (List (List ℚ))) (i j k : ℕ) (hi : i < m) (hj : j < d) (hk : k < N) :
    getE (normBlock eps rsqrt false w b m d N field) i j k =
      rsqrt (fieldNormStat (centeredField m d N field) m N + eps) *
        getE (centeredField m d N field) i j k := by
  rw [normBlock_entry eps rsqrt false w b m d N field i j k hi hj hk]
  simp

/-- C4 witness at a concrete block and indices. -/
theorem normBlock_scale_shared_example :
    getE (normBlock 1 id false [] [] 1 3 2 [[[1, 2], [3, 4], [5, 6]]]) 0 2 1 =
      id (fieldNormStat (centeredField 1 3 2 [[[1, 2], [3, 4], [5, 6]]]) 1 2 + 1) *
        getE (centeredField 1 3 2 [[[1, 2], [3, 4], [5, 6]]]) 0 2 1 :=
  normBlock_scale_shared 1 id [] [] 1 3 2 [[[1, 2], [3, 4], [5, 6]]] 0 2 1
    (by decide) (by decide) (by decide)

/-- C3: a block with `d ≠ 1` is a pure per-channel scaling of its input (never
shifted), while a block with `d = 1` first has the per-sample block mean
subtracted and, when affine, the bias added afterwards. -/
theorem normBlock_centering (eps : ℚ) (rsqrt : ℚ → ℚ) (affine : Bool) (w b : List ℚ)
    (m d N : ℕ) (field : List (List (List ℚ))) (hwf : fieldWf field m d N) :
    (d ≠ 1 → ∃ s : ℕ → ℚ, ∀ i j k, i < m → j < d → k < N →
      getE (normBlock eps rsqrt affine w b m d N field) i j k = s i * getE field i j k) ∧
    (d = 1 → ∃ s : ℕ → ℚ, ∀ i j k, i < m → j < d → k < N →
      getE (normBlock eps rsqrt affine w b m d N field) i j k =
        s i * (getE field i j k - blockMean field m d N) +
          (if affine = true then b.getD i 0 else 0)) := by
  constructor
  · intro hd
    refine ⟨fun i => if affine = true then
        rsqrt (fieldNormStat (centeredField m d N field) m N + eps) * w.getD i 0
      else rsqrt (fieldNormStat (centeredField m d N field) m N + eps), ?_⟩
    intro i j k hi hj hk
    rw [normBlock_entry eps rsqrt affine w b m d N field i j k hi hj hk]
    rw [centeredField_of_ne m d N field hd]
    simp [hd]
  · intro hd
    subst hd
    refine ⟨fun i => if affine = true then
        rsqrt (fieldNormStat (centeredField m 1 N field) m N + eps) * w.getD i 0
      else rsqrt (fieldNormStat (centeredField m 1 N field) m N + eps), ?_⟩
    intro i j k hi hj hk
    rw [normBlock_entry eps rsqrt affine w b m 1 N field i j k hi hj hk]
    have hcent : getE (centeredField m 1 N field) i j k =
        getE field i j k - blockMean field m 1 N := by
      unfold centeredField
      rw [if_pos rfl]
      exact getE_mapField _ field m 1 N i j k hwf hi hj hk
    rw [hcent]
    by_cases ha : affine = true <;> simp [ha]

/-- C3 witness at a concrete wellformed block with `d = 3`. -/
theorem normBlock_centering_example :
    ((3 : ℕ) ≠ 1 → ∃ s : ℕ → ℚ, ∀ i j k, i < 1 → j < 3 → k < 1 →
      getE (normBlock 1 id false [] [] 1 3 1 [[[1], [2], [3]]]) i j k =
        s i * getE [[[1], [2], [3]]] i j k) ∧
    ((3 : ℕ) = 1 → ∃ s : ℕ → ℚ, ∀ i j k, i < 1 → j < 3 → k < 1 →
      getE (normBlock 1 id false [] [] 1 3 1 [[[1], [2], [3]]]) i j k =
        s i * (getE [[[1], [2], [3]]] i j k - blockMean [[[1], [2], [3]]] 1 3 1) +
          (if false = true then List.getD [] i 0 else 0)) :=
  normBlock_centering 1 id false [] [] 1 3 1 [[[1], [2], [3]]] ⟨rfl, by decide⟩

/-- C2: whenever the stored representations consume exactly the input channel
count and, in the affine case, the consumed weight and bias counts match the
allocated lengths, the forward pass raises nothing and returns a tensor of
exactly the input shape. -/
theorem forward_preserves_shape (Rs : List (ℕ × ℕ)) (eps : ℚ) (affine : Bool)
    (rsqrt : ℚ → ℚ) (input : Tensor3) (hwf : input.wf)
    (hC : consumedWidth (SE3GroupNorm.init Rs eps affine).Rs = input.C)
    (haff : affine = true →
      consumedWeight (SE3GroupNorm.init Rs eps affine).Rs = consumedWeight Rs ∧
      consumedBias (SE3GroupNorm.init Rs eps affine).Rs = consumedBias Rs) :
    ∃ out : Tensor3, (SE3GroupNorm.init Rs eps affine).forward rsqrt input = some out ∧
      out.C = input.C ∧ out.N = input.N ∧ out.data.length = input.data.length ∧
      out.wf := by
  have hcond : consumedWidth (SE3GroupNorm.init Rs eps affine).Rs = input.C ∧
      ((SE3GroupNorm.init Rs eps affine).affine = true →
        consumedWeight (SE3GroupNorm.init Rs eps affine).Rs =
          (((SE3GroupNorm.init Rs eps affine).weight.getD [])).length ∧
        consumedBias (SE3GroupNorm.init Rs eps affine).Rs =
          (((SE3GroupNorm.init Rs eps affine).bias.getD [])).length) := by
    refine ⟨hC, ?_⟩
    intro ha
    obtain ⟨h1, h2⟩ := haff ha
    subst ha
    exact ⟨by rw [h1]; simp [SE3GroupNorm.init], by rw [h2]; simp [SE3GroupNorm.init]⟩
  refine ⟨⟨input.C, input.N, input.data.map fun sample =>
      forwardSample (SE3GroupNorm.init Rs eps affine).eps rsqrt
        (SE3GroupNorm.init Rs eps affine).affine
        ((SE3GroupNorm.init Rs eps affine).weight.getD [])
        ((SE3GroupNorm.init Rs eps affine).bias.getD []) input.N sample
        (SE3GroupNorm.init Rs eps affine).Rs 0 0 0⟩, ?_, rfl, rfl, by simp, ?_⟩
  · simp only [SE3GroupNorm.forward]
    rw [if_pos hcond]
  · intro s hs
    simp only [List.mem_map] at hs
    obtain ⟨sample, _, rfl⟩ := hs
    constructor
    · rw [forwardSample_length]
      exact hC
    · intro r hr
      exact forwardSample_channel_length _ _ _ _ _ _ _ _ _ _ _ r hr

/-- C2 witness: `Rs = [(3, 1), (4, 3), (1, 5)]` on an input of shape
`[16, 20, 10, 10, 10]`, the spatial axes flattened to `N = 1000`. -/
theorem forward_preserves_shape_example :
    ∃ out : Tensor3,
      (SE3GroupNorm.init [(3, 1), (4, 3), (1, 5)] (1 / 100000) true).forward (fun x => x)
          ⟨20, 1000, List.replicate 16 (List.replicate 20 (List.replicate 1000 0))⟩ =
        some out ∧
      out.C = 20 ∧ out.N = 1000 ∧ out.data.length = 16 ∧ out.wf :=
  forward_preserves_shape [(3, 1), (4, 3), (1, 5)] (1 / 100000) true (fun x => x)
    ⟨20, 1000, List.replicate 16 (List.replicate 20 (List.replicate 1000 0))⟩
    (by
      intro s hs
      rw [List.eq_of_mem_replicate hs]
      refine ⟨by rw [List.length_replicate], ?_⟩
      intro r hr
      rw [List.eq_of_mem_replicate hr, List.length_replicate])
    (by decide)
    (fun _ => ⟨by decide, by decide⟩)

/-- C5: for a constructed module the forward pass fails with the modelled
assertion error exactly when the consumed channel width differs from the input
channel count, or, when affine, the consumed weight or bias counts differ from
the allocated lengths; the checks sit after the block loop in `forward`. -/
theorem forward_assert_iff (Rs : List (ℕ × ℕ)) (eps : ℚ) (affine : Bool)
    (rsqrt : ℚ → ℚ) (input : Tensor3) :
    (SE3GroupNorm.init Rs eps affine).forward rsqrt input = none ↔
      consumedWidth (SE3GroupNorm.init Rs eps affine).Rs ≠ input.C ∨
        (affine = true ∧
          (consumedWeight (SE3GroupNorm.init Rs eps affine).Rs ≠
              ((SE3GroupNorm.init Rs eps affine).weight.getD []).length ∨
            consumedBias (SE3GroupNorm.init Rs eps affine).Rs ≠
              ((SE3GroupNorm.init Rs eps affine).bias.getD []).length)) := by
  have hgaff : (SE3GroupNorm.init Rs eps affine).affine = affine := rfl
  simp only [SE3GroupNorm.forward]
  by_cases h : consumedWidth (SE3GroupNorm.init Rs eps affine).Rs = input.C ∧
      ((SE3GroupNorm.init Rs eps affine).affine = true →
        consumedWeight (SE3GroupNorm.init Rs eps affine).Rs =
          (((SE3GroupNorm.init Rs eps affine).weight.getD [])).length ∧
        consumedBias (SE3GroupNorm.init Rs eps affine).Rs =
          (((SE3GroupNorm.init Rs eps affine).bias.getD [])).length)
  · rw [if_pos h]
    obtain ⟨h1, h2⟩ := h
    rw [hgaff] at h2
    constructor
    · intro hsome
      exact absurd hsome (by simp)
    · rintro (hne | ⟨ha, hne | hne⟩)
      · exact absurd h1 hne
      · exact absurd (h2 ha).1 hne
      · exact absurd (h2 ha).2 hne
  · rw [if_neg h]
    rw [hgaff] at h
    constructor
    · intro _
      by_contra hcon
      push_neg at hcon
      obtain ⟨hc1, hc2⟩ := hcon
      exact h ⟨hc1, fun ha => ⟨(hc2 (hgaff ▸ ha)).1, (hc2 (hgaff ▸ ha)).2⟩⟩
    · intro _
      rfl

/-- C6: constructed with `affine = false` the module holds no weight and no bias,
and its forward output never reads whatever weight or bias values are stored:
replacing them changes nothing. -/
theorem affine_false_independent (Rs : List (ℕ × ℕ)) (eps : ℚ) :
    (SE3GroupNorm.init Rs eps false).weight = none ∧
    (SE3GroupNorm.init Rs eps false).bias = none ∧
    ∀ (w2 b2 : Option (List ℚ)) (rsqrt : ℚ → ℚ) (input : Tensor3),
      SE3GroupNorm.forward
          { Rs := (SE3GroupNorm.init Rs eps false).Rs, eps := eps, affine := false,
            weight := w2, bias := b2 } rsqrt input =
        (SE3GroupNorm.init Rs eps false).forward rsqrt input := by
  refine ⟨rfl, rfl, ?_⟩
  intro w2 b2 rsqrt input
  have key : ∀ gn1 gn2 : SE3GroupNorm, gn1.Rs = gn2.Rs → gn1.eps = gn2.eps →
      gn1.affine = false → gn2.affine = false →
      gn1.forward rsqrt input = gn2.forward rsqrt input := by
    intro gn1 gn2 hR he h1 h2
    simp only [SE3GroupNorm.forward, hR, he, h1, h2]
    by_cases hc : consumedWidth gn2.Rs = input.C
    · have hcond1 : consumedWidth gn2.Rs = input.C ∧ (false = true →
          consumedWeight gn2.Rs = (gn1.weight.getD []).length ∧
          consumedBias gn2.Rs = (gn1.bias.getD []).length) :=
        ⟨hc, fun ha => absurd ha (by simp)⟩
      have hcond2 : consumedWidth gn2.Rs = input.C ∧ (false = true →
          consumedWeight gn2.Rs = (gn2.weight.getD []).length ∧
          consumedBias gn2.Rs = (gn2.bias.getD []).length) :=
        ⟨hc, fun ha => absurd ha (by simp)⟩
      rw [if_pos hcond1, if_pos hcond2]
      have hfun : (fun sample => forwardSample gn2.eps rsqrt false (gn1.weight.getD [])
            (gn1.bias.getD []) input.N sample gn2.Rs 0 0 0) =
          fun sample => forwardSample gn2.eps rsqrt false (gn2.weight.getD [])
            (gn2.bias.getD []) input.N sample gn2.Rs 0 0 0 :=
        funext fun sample =>
          forwardSample_affine_false gn2.eps rsqrt _ _ _ _ input.N sample gn2.Rs 0 0 0 0 0
      rw [hfun]
    · rw [if_neg fun hcon => hc hcon.1, if_neg fun hcon => hc hcon.1]
  exact key _ _ rfl rfl rfl rfl

/-- C9: the wrapper defaults its normalisation representations to
`[(m, 2 * l + 1)]` over the input representations, and its forward pass is
exactly the convolution applied to the group-normalised input. -/
theorem gnconv_forward_compose (Rs_in : List (ℕ × ℕ)) (conv : Tensor3 → Tensor3)
    (eps : ℚ) :
    (SE3GNConvolution.init Rs_in conv eps none).gn =
      SE3GroupNorm.init (Rs_in.map fun p => (p.1, 2 * p.2 + 1)) eps true ∧
    ∀ (mdl : SE3GNConvolution) (rsqrt : ℚ → ℚ) (input : Tensor3) (out : Tensor3),
      mdl.forward rsqrt input = some out ↔
        ∃ y : Tensor3, mdl.gn.forward rsqrt input = some y ∧ out = mdl.conv y := by
  constructor
  · rfl
  · intro mdl rsqrt input out
    unfold SE3GNConvolution.forward
    cases h : mdl.gn.forward rsqrt input with
    | none => simp
    | some y =>
      simp only [Option.map_some', Option.some_inj]
      constructor
      · intro hy
        exact ⟨y, rfl, hy.symm⟩
      · rintro ⟨y2, hy2, rfl⟩
        obtain rfl : y = y2 := by
          have := hy2
          simp only [Option.some_inj] at this
          exact this
        rfl

/-- C10: batch samples are processed independently: if two inputs with equal
spatial size agree at batch index `bIdx`, then the successful outputs of the
same module agree at `bIdx` as well, whatever the other samples hold. -/
theorem forward_batch_independent (gn : SE3GroupNorm) (rsqrt : ℚ → ℚ)
    (t1 t2 o1 o2 : Tensor3) (bIdx : ℕ)
    (h1 : gn.forward rsqrt t1 = some o1) (h2 : gn.forward rsqrt t2 = some o2)
    (hN : t1.N = t2.N) (hb : t1.data[bIdx]? = t2.data[bIdx]?) :
    o1.data[bIdx]? = o2.data[bIdx]? := by
  have e1 : o1.data = t1.data.map fun sample =>
      forwardSample gn.eps rsqrt gn.affine (gn.weight.getD []) (gn.bias.getD [])
        t1.N sample gn.Rs 0 0 0 := by
    simp only [SE3GroupNorm.forward] at h1
    split at h1
    · cases h1
      rfl
    · cases h1
  have e2 : o2.data = t2.data.map fun sample =>
      forwardSample gn.eps rsqrt gn.affine (gn.weight.getD []) (gn.bias.getD [])
        t2.N sample gn.Rs 0 0 0 := by
    simp only [SE3GroupNorm.forward] at h2
    split at h2
    · cases h2
      rfl
    · cases h2
  rw [e1, e2, hN, List.getElem?_map, List.getElem?_map, hb]

/-- C10 witness: two concrete two-sample batches that agree at index 0 and differ
at index 1 give outputs that agree at index 0. -/
theorem forward_batch_independent_example :
    (Tensor3.mk 1 2 [[[-2, 2]], [[-2, 2]]]).data[0]? =
      (Tensor3.mk 1 2 [[[-2, 2]], [[-10, 10]]]).data[0]? :=
  forward_batch_independent (SE3GroupNorm.init [(1, 1)] 1 false) id
    ⟨1, 2, [[[1, 3]], [[0, 2]]]⟩ ⟨1, 2, [[[1, 3]], [[5, 9]]]⟩
    ⟨1, 2, [[[-2, 2]], [[-2, 2]]]⟩ ⟨1, 2, [[[-2, 2]], [[-10, 10]]]⟩ 0
    (by
      have hr1 : List.range 1 = [0] := rfl
      have hr2 : List.range 2 = [0, 1] := rfl
      norm_num [SE3GroupNorm.forward, SE3GroupNorm.init, forwardSample, normBlock,
        sliceBlock, centeredField, mapField, blockMean, fieldNormStat, sumAll, sumSq,
        getE, consumedWidth, consumedWeight, consumedBias, hr1, hr2, List.getD])
    (by
      have hr1 : List.range 1 = [0] := rfl
      have hr2 : List.range 2 = [0, 1] := rfl
      norm_num [SE3GroupNorm.forward, SE3GroupNorm.init, forwardSample, normBlock,
        sliceBlock, centeredField, mapField, blockMean, fieldNormStat, sumAll, sumSq,
        getE, consumedWidth, consumedWeight, consumedBias, hr1, hr2, List.getD])
    rfl rfl
